import Mathlib

/-!
Greedy set cover over a flow–switch relation.

Shallow embedding of `greedy_set_cover` (src/greedy_set_cover.cpp) and of
`count_covered_flows` and the range-checked matrix fill of
`solve_min_switch_set_cover_ILP` (src/set_cover_ilp.cpp).

Modelling conventions.

* `vector<vector<int>> paths` is a `List (List Int)`; the switch ids stored in it
  are arbitrary C++ `int`s, hence `Int`.
* `nFlows` and `nSwitches` are sizes of vectors that the function allocates first
  thing, hence `Nat`.  The loop counters `f` and `s` range over `[0, n)`, hence `Nat`.
* `bestSwitch`, `bestGain` and `gain` are `Int` (the first two start at `-1`).
* Counters are unbounded: the embedding assumes that no `int` counter overflows.
* `vector::operator[]` is unchecked in C++.  An access outside the vector is
  undefined behaviour; the embedding stops there with `Outcome.outOfBounds`.
* The `while` loop is run with a fuel argument; `Outcome.outOfFuel` marks a run cut
  short by the fuel, never a behaviour of the program.
* The lines written to `cout` (one per selection step) are collected in `trace`,
  the message written to `cerr` is recorded in `infeasible`.
-/

namespace GreedySetCover

/-- How a run of the embedding ends: with a value, in `exit(1)` after an error message,
at an unchecked access outside a vector, or cut short by the fuel. -/
inductive Outcome (α : Type) where
  | returned (a : α)
  | rejected
  | outOfBounds
  | outOfFuel
  deriving DecidableEq

/-- One line of the step log: `Step k: chose switch .. (gain = .., total covered = ..)`. -/
structure StepRecord where
  switch : Int
  gain : Int
  covered : Nat
  deriving DecidableEq

/-- The mutable locals of `greedy_set_cover` together with the log written so far. -/
structure State where
  covered : List Bool
  chosen : List Bool
  coveredCount : Nat
  step : Nat
  trace : List StepRecord
  deriving DecidableEq

/-- What a finished run leaves behind: the final locals and whether the
`remaining flows cannot be covered` branch was taken. -/
structure Result where
  final : State
  infeasible : Bool
  deriving DecidableEq

/-- The statement `switchFlows[sw].push_back(f)`.  The source does not check the
index: `none` stands for an access outside `switchFlows`. -/
def pushFlow (switchFlows : List (List Nat)) (sw : Int) (f : Nat) :
    Option (List (List Nat)) :=
  if 0 ≤ sw ∧ sw.toNat < switchFlows.length then
    some (switchFlows.set sw.toNat (switchFlows.getD sw.toNat [] ++ [f]))
  else
    none

/-- The inner loop `for (int sw : paths[f]) switchFlows[sw].push_back(f)`. -/
def pushPath (f : Nat) : List Int → List (List Nat) → Option (List (List Nat))
  | [], switchFlows => some switchFlows
  | sw :: rest, switchFlows =>
    match pushFlow switchFlows sw f with
    | some switchFlows1 => pushPath f rest switchFlows1
    | none => none

/-- The outer loop `for (int f = 0; f < nFlows; ++f)` of the reverse mapping,
started at flow `f` with `todo` flows left; `none` when `paths[f]` or a
`switchFlows[sw]` lies outside its vector. -/
def buildFrom (paths : List (List Int)) :
    Nat → Nat → List (List Nat) → Option (List (List Nat))
  | 0, _, switchFlows => some switchFlows
  | todo + 1, f, switchFlows =>
    match paths[f]? with
    | none => none
    | some path =>
      match pushPath f path switchFlows with
      | some switchFlows1 => buildFrom paths todo (f + 1) switchFlows1
      | none => none

/-- The reverse mapping switch -> flows built at the start of `greedy_set_cover`. -/
def buildSwitchFlows (nFlows nSwitches : Nat) (paths : List (List Int)) :
    Option (List (List Nat)) :=
  buildFrom paths nFlows 0 (List.replicate nSwitches [])

/-- The gain loop `for (int f : switchFlows[s]) if (!covered[f]) gain++`,
started with `gain`. -/
def gainLoop (covered : List Bool) : List Nat → Int → Int
  | [], gain => gain
  | f :: rest, gain =>
    if covered.getD f false = false then gainLoop covered rest (gain + 1)
    else gainLoop covered rest gain

/-- One pass of the body of `for (int s = 0; s < nSwitches; ++s)` on the
pair `(bestSwitch, bestGain)`. -/
def scanStep (switchFlows : List (List Nat)) (covered chosen : List Bool)
    (best : Int × Int) (s : Nat) : Int × Int :=
  if chosen.getD s false = true then best
  else
    let gain := gainLoop covered (switchFlows.getD s []) 0
    if gain > best.2 then ((s : Int), gain) else best

/-- The scan for the switch with maximum gain: `(bestSwitch, bestGain)`
after the `for` loop, both started at `-1`. -/
def scan (nSwitches : Nat) (switchFlows : List (List Nat)) (covered chosen : List Bool) :
    Int × Int :=
  (List.range nSwitches).foldl (scanStep switchFlows covered chosen) (-1, -1)

/-- The marking loop `for (int f : switchFlows[bestSwitch])
if (!covered[f]) { covered[f] = true; coveredCount++; }`. -/
def markLoop : List Nat → List Bool × Nat → List Bool × Nat
  | [], acc => acc
  | f :: rest, (covered, coveredCount) =>
    if covered.getD f false = false then markLoop rest (covered.set f true, coveredCount + 1)
    else markLoop rest (covered, coveredCount)

/-- Outcome of one evaluation of the `while` condition and, when it holds, of the body. -/
inductive Iter where
  | next (st : State)
  | infeasible
  | done
  deriving DecidableEq

/-- One iteration of `while (coveredCount < nFlows)`. -/
def iterate (nFlows nSwitches : Nat) (switchFlows : List (List Nat)) (st : State) : Iter :=
  if st.coveredCount < nFlows then
    let best := scan nSwitches switchFlows st.covered st.chosen
    let bestSwitch := best.1
    let bestGain := best.2
    if bestSwitch = -1 ∨ bestGain = 0 then .infeasible
    else
      let chosen := st.chosen.set bestSwitch.toNat true
      let step := st.step + 1
      let marked := markLoop (switchFlows.getD bestSwitch.toNat []) (st.covered, st.coveredCount)
      .next
        { covered := marked.1
          chosen := chosen
          coveredCount := marked.2
          step := step
          trace := st.trace ++ [⟨bestSwitch, bestGain, marked.2⟩] }
  else .done

/-- The locals right before the `while` loop. -/
def initState (nFlows nSwitches : Nat) : State :=
  { covered := List.replicate nFlows false
    chosen := List.replicate nSwitches false
    coveredCount := 0
    step := 0
    trace := [] }

/-- The `while` loop, cut after `fuel` evaluations of its condition. -/
def whileLoop (nFlows nSwitches : Nat) (switchFlows : List (List Nat)) :
    Nat → State → Outcome Result
  | 0, _ => .outOfFuel
  | fuel + 1, st =>
    match iterate nFlows nSwitches switchFlows st with
    | .next st1 => whileLoop nFlows nSwitches switchFlows fuel st1
    | .infeasible => .returned ⟨st, true⟩
    | .done => .returned ⟨st, false⟩

/-- The function `greedy_set_cover`; the returned vector is `final.chosen`. -/
def greedy_set_cover (fuel nFlows nSwitches : Nat) (paths : List (List Int)) :
    Outcome Result :=
  match buildSwitchFlows nFlows nSwitches paths with
  | some switchFlows => whileLoop nFlows nSwitches switchFlows fuel (initState nFlows nSwitches)
  | none => .outOfBounds

/-- The locals after `k` completed iterations of the `while` loop started in `st`,
if the loop runs that long. -/
def stateAfter (nFlows nSwitches : Nat) (switchFlows : List (List Nat)) (st : State) :
    Nat → Option State
  | 0 => some st
  | k + 1 =>
    match stateAfter nFlows nSwitches switchFlows st k with
    | some st1 =>
      match iterate nFlows nSwitches switchFlows st1 with
      | .next st2 => some st2
      | _ => none
    | none => none

/-- The inner loop of `count_covered_flows` for flow `f`:
`if (sw >= 0 && sw < (int)chosen.size() && chosen[sw]) { covered[f] = true; break; }`. -/
def coverPath (chosen : List Bool) (f : Nat) : List Int → List Bool → List Bool
  | [], covered => covered
  | sw :: rest, covered =>
    if 0 ≤ sw ∧ sw < (chosen.length : Int) ∧ chosen.getD sw.toNat false = true then
      covered.set f true
    else coverPath chosen f rest covered

/-- The outer loop `for (int f = 0; f < nFlows; ++f)` of `count_covered_flows`, started at
flow `f` with `todo` flows left; `none` when `paths[f]` lies outside `paths`. -/
def coverFrom (paths : List (List Int)) (chosen : List Bool) :
    Nat → Nat → List Bool → Option (List Bool)
  | 0, _, covered => some covered
  | todo + 1, f, covered =>
    match paths[f]? with
    | none => none
    | some path => coverFrom paths chosen todo (f + 1) (coverPath chosen f path covered)

/-- The function `count_covered_flows` of src/set_cover_ilp.cpp; the closing loop
`for (bool c : covered) if (c) cnt++` is `List.count true`. -/
def count_covered_flows (nFlows : Nat) (paths : List (List Int)) (chosen : List Bool) :
    Option Nat :=
  (coverFrom paths chosen nFlows 0 (List.replicate nFlows false)).map
    (fun covered => covered.count true)

/-- The range-checked inner loop of the matrix fill in `solve_min_switch_set_cover_ILP`
for row `i`; the pairs are `(ia[k], ja[k])`, `none` is the branch
`switch index out of range in paths` that ends in `exit(1)`. -/
def ilpFillRow (nSwitches : Nat) (i : Nat) : List Int → List (Nat × Int) → Option (List (Nat × Int))
  | [], entries => some entries
  | sw :: rest, entries =>
    if sw < 0 ∨ sw ≥ (nSwitches : Int) then none
    else ilpFillRow nSwitches i rest (entries ++ [(i + 1, sw + 1)])

/-- The outer loop `for (int i = 0; i < nFlows; ++i)` of the matrix fill. -/
def ilpFillFrom (nSwitches : Nat) (paths : List (List Int)) :
    Nat → Nat → List (Nat × Int) → Outcome (List (Nat × Int))
  | 0, _, entries => .returned entries
  | todo + 1, i, entries =>
    match paths[i]? with
    | none => .outOfBounds
    | some path =>
      match ilpFillRow nSwitches i path entries with
      | some entries1 => ilpFillFrom nSwitches paths todo (i + 1) entries1
      | none => .rejected

/-- The matrix fill of `solve_min_switch_set_cover_ILP` (src/set_cover_ilp.cpp). -/
def ilpFillMatrix (nFlows nSwitches : Nat) (paths : List (List Int)) :
    Outcome (List (Nat × Int)) :=
  ilpFillFrom nSwitches paths nFlows 0 []

/-- The marginal gain in the words of the specification: the number of currently
uncovered flows that switch `s` would newly cover, each flow counted once. -/
def marginalGain (nFlows : Nat) (paths : List (List Int)) (covered : List Bool) (s : Nat) :
    Nat :=
  (List.range nFlows).countP
    (fun f => !covered.getD f false && decide ((s : Int) ∈ paths.getD f []))

/-- The number of flows whose path contains at least one chosen switch, in the words of
the specification. -/
def flowsWithChosenSwitch (nFlows : Nat) (paths : List (List Int)) (chosen : List Bool) :
    Nat :=
  (List.range nFlows).countP
    (fun f => decide (∃ s : Nat, s < chosen.length ∧ (s : Int) ∈ paths.getD f [] ∧
      chosen.getD s false = true))

/-- The value of the local `gain` when the scan pass reaches the unchosen switch `s`. -/
def scanGain (switchFlows : List (List Nat)) (covered : List Bool) (s : Nat) : Int :=
  gainLoop covered (switchFlows.getD s []) 0

/-- The precondition on switch ids: every id stored in `paths` lies in `[0, nSwitches)`. -/
def InRange (nSwitches : Nat) (paths : List (List Int)) : Prop :=
  ∀ path ∈ paths, ∀ sw ∈ path, 0 ≤ sw ∧ sw < (nSwitches : Int)

instance (nSwitches : Nat) (paths : List (List Int)) : Decidable (InRange nSwitches paths) := by
  unfold InRange
  infer_instance

/-! ## Predicates used in the statements -/

/-- The relation between the reverse mapping and `paths` that the solver relies on. -/
structure Mirror (nFlows nSwitches : Nat) (paths : List (List Int))
    (sf : List (List Nat)) : Prop where
  length_eq : sf.length = nSwitches
  mem_iff : ∀ s g, g ∈ sf.getD s [] ↔ g < nFlows ∧ (s : Int) ∈ paths.getD g []

/-- What the pair `(bestSwitch, bestGain)` holds after the scan of the first `n` switches. -/
def ScanPost (n : Nat) (sf : List (List Nat)) (covered chosen : List Bool)
    (best : Int × Int) : Prop :=
  (best = (-1, -1) ∧ ∀ s, s < n → chosen.getD s false = true) ∨
  (∃ b : Nat, best.1 = (b : Int) ∧ b < n ∧ chosen.getD b false = false ∧
    best.2 = scanGain sf covered b ∧
    ∀ s, s < n → chosen.getD s false = false →
      scanGain sf covered s ≤ best.2 ∧ (scanGain sf covered s = best.2 → b ≤ s))

/-- Switch `b` is what the scan pass selects in state `st`: it is unchosen, its
computed gain is positive and maximal among the unchosen switches, and it is the
first switch in index order with that gain. -/
def Selects (nSwitches : Nat) (sf : List (List Nat)) (st : State) (b : Nat) : Prop :=
  b < nSwitches ∧ st.chosen.getD b false = false ∧ 0 < scanGain sf st.covered b ∧
  ∀ s, s < nSwitches → st.chosen.getD s false = false →
    scanGain sf st.covered s ≤ scanGain sf st.covered b ∧
    (scanGain sf st.covered s = scanGain sf st.covered b → b ≤ s)

/-- The state the body of the loop produces once switch `b` is selected. -/
def applyStep (sf : List (List Nat)) (st : State) (b : Nat) : State :=
  { covered := (markLoop (sf.getD b []) (st.covered, st.coveredCount)).1
    chosen := st.chosen.set b true
    coveredCount := (markLoop (sf.getD b []) (st.covered, st.coveredCount)).2
    step := st.step + 1
    trace := st.trace ++
      [⟨(b : Int), scanGain sf st.covered b,
        (markLoop (sf.getD b []) (st.covered, st.coveredCount)).2⟩] }

/-- The loop invariant of `while (coveredCount < nFlows)`. -/
structure Inv (nFlows nSwitches : Nat) (paths : List (List Int)) (st : State) : Prop where
  covered_len : st.covered.length = nFlows
  chosen_len : st.chosen.length = nSwitches
  count_eq : st.coveredCount = st.covered.count true
  covered_iff : ∀ f, f < nFlows →
    (st.covered.getD f false = true ↔
      ∃ s : Nat, (s : Int) ∈ paths.getD f [] ∧ st.chosen.getD s false = true)
  trace_chosen : ∀ r ∈ st.trace, ∃ s : Nat, r.switch = (s : Int) ∧ st.chosen.getD s false = true
  trace_nodup : (st.trace.map (fun r => r.switch)).Nodup
  step_eq : st.step = st.trace.length

/-! ## Lists as vectors -/

theorem getD_set_eq {α : Type} (l : List α) (i j : Nat) (a d : α) :
    (l.set i a).getD j d = if i = j ∧ i < l.length then a else l.getD j d := by
  simp only [List.getD_eq_getElem?_getD, List.getElem?_set]
  by_cases h : i = j
  · subst h
    by_cases h2 : i < l.length
    · simp [h2]
    · rw [List.getElem?_eq_none (by omega)]
      simp [h2]
  · simp [h]

theorem count_set_true (l : List Bool) (i : Nat) (h : l.getD i false = false)
    (hi : i < l.length) : (l.set i true).count true = l.count true + 1 := by
  induction l generalizing i with
  | nil => simp at hi
  | cons a t ih =>
    cases i with
    | zero =>
      simp at h
      subst h
      simp
    | succ i =>
      simp at h hi
      have := ih i (by simpa using h) hi
      simp [List.count_cons, this]
      omega

theorem getD_replicate_eq {α : Type} (n i : Nat) (a : α) :
    (List.replicate n a).getD i a = a := by
  simp only [List.getD_eq_getElem?_getD, List.getElem?_replicate]
  split <;> rfl

/-! ## The reverse mapping -/

theorem pushFlow_spec (sf : List (List Nat)) (sw : Int) (f : Nat)
    (h0 : 0 ≤ sw) (h1 : sw < (sf.length : Int)) :
    ∃ sf1, pushFlow sf sw f = some sf1 ∧ sf1.length = sf.length ∧
      ∀ s g, (sf1.getD s []).count g =
        (sf.getD s []).count g + (if g = f ∧ (s : Int) = sw then 1 else 0) := by
  have hlt : sw.toNat < sf.length := by omega
  have e : pushFlow sf sw f = some (sf.set sw.toNat (sf.getD sw.toNat [] ++ [f])) := by
    unfold pushFlow
    rw [if_pos ⟨h0, hlt⟩]
  refine ⟨_, e, by simp, ?_⟩
  intro s g
  rw [getD_set_eq]
  by_cases hs : sw.toNat = s
  · have hs2 : (s : Int) = sw := by omega
    subst hs
    simp only [hlt, and_self, if_true, hs2, and_true, List.count_append]
    by_cases hg : g = f
    · simp [hg]
    · have : ¬ (f = g) := fun h => hg h.symm
      simp [hg, List.count_cons, this]
  · have hs2 : ¬ ((s : Int) = sw) := by omega
    simp [hs, hs2]

theorem pushPath_spec (f : Nat) (path : List Int) (sf : List (List Nat))
    (hr : ∀ sw ∈ path, 0 ≤ sw ∧ sw < (sf.length : Int)) :
    ∃ sf1, pushPath f path sf = some sf1 ∧ sf1.length = sf.length ∧
      ∀ s g, (sf1.getD s []).count g =
        (sf.getD s []).count g + (if g = f then path.count (s : Int) else 0) := by
  induction path generalizing sf with
  | nil => exact ⟨sf, rfl, rfl, by simp⟩
  | cons sw rest ih =>
    obtain ⟨h0, h1⟩ := hr sw (by simp)
    obtain ⟨sf1, e1, l1, c1⟩ := pushFlow_spec sf sw f h0 h1
    obtain ⟨sf2, e2, l2, c2⟩ := ih sf1 (fun x hx => by
      rw [l1]
      exact hr x (by simp [hx]))
    refine ⟨sf2, by simp [pushPath, e1, e2], by omega, ?_⟩
    intro s g
    rw [c2, c1]
    by_cases hg : g = f
    · by_cases hs : (s : Int) = sw
      · simp [hg, hs]
        omega
      · have : ¬ (sw = (s : Int)) := fun h => hs h.symm
        simp [hg, hs, List.count_cons, this]
    · simp [hg]

theorem buildFrom_spec (paths : List (List Int)) (todo f : Nat) (sf : List (List Nat))
    (hlen : f + todo ≤ paths.length) (hr : InRange sf.length paths) :
    ∃ sf1, buildFrom paths todo f sf = some sf1 ∧ sf1.length = sf.length ∧
      ∀ s g, (sf1.getD s []).count g =
        (sf.getD s []).count g +
          (if f ≤ g ∧ g < f + todo then (paths.getD g []).count (s : Int) else 0) := by
  induction todo generalizing f sf with
  | zero =>
    refine ⟨sf, rfl, rfl, ?_⟩
    intro s g
    have : ¬ (f ≤ g ∧ g < f + 0) := by omega
    simp [this]
  | succ todo ih =>
    have hf : f < paths.length := by omega
    have hget : paths[f]? = some paths[f] := List.getElem?_eq_getElem hf
    obtain ⟨sf1, e1, l1, c1⟩ := pushPath_spec f paths[f] sf
      (hr paths[f] (List.getElem_mem hf))
    obtain ⟨sf2, e2, l2, c2⟩ := ih (f + 1) sf1 (by omega) (by rw [l1]; exact hr)
    refine ⟨sf2, by simp [buildFrom, hget, e1, e2], by omega, ?_⟩
    intro s g
    rw [c2, c1]
    by_cases hg : g = f
    · subst hg
      have h1 : ¬ (g + 1 ≤ g ∧ g < g + 1 + todo) := by omega
      have h2 : g ≤ g ∧ g < g + (todo + 1) := by omega
      simp [h1, h2, List.getD_eq_getElem?_getD, hget]
    · by_cases hin : f + 1 ≤ g ∧ g < f + 1 + todo
      · have h2 : f ≤ g ∧ g < f + (todo + 1) := by omega
        simp [hg, hin, h2]
      · have h2 : ¬ (f ≤ g ∧ g < f + (todo + 1)) := by omega
        simp [hg, hin, h2]

theorem buildSwitchFlows_spec (nFlows nSwitches : Nat) (paths : List (List Int))
    (hlen : paths.length = nFlows) (hr : InRange nSwitches paths) :
    ∃ sf, buildSwitchFlows nFlows nSwitches paths = some sf ∧ sf.length = nSwitches ∧
      ∀ s g, (sf.getD s []).count g =
        if g < nFlows then (paths.getD g []).count (s : Int) else 0 := by
  obtain ⟨sf, e, l, c⟩ := buildFrom_spec paths nFlows 0 (List.replicate nSwitches [])
    (by omega) (by simpa using hr)
  refine ⟨sf, e, by simpa using l, ?_⟩
  intro s g
  rw [c, getD_replicate_eq]
  simp

theorem buildSwitchFlows_mirror (nFlows nSwitches : Nat) (paths : List (List Int))
    (hlen : paths.length = nFlows) (hr : InRange nSwitches paths) :
    ∃ sf, buildSwitchFlows nFlows nSwitches paths = some sf ∧
      Mirror nFlows nSwitches paths sf := by
  obtain ⟨sf, e, l, c⟩ := buildSwitchFlows_spec nFlows nSwitches paths hlen hr
  refine ⟨sf, e, l, ?_⟩
  intro s g
  rw [← List.count_pos_iff, c]
  by_cases hg : g < nFlows
  · simp [hg, List.count_pos_iff]
  · simp [hg]

theorem mirror_of_build {nFlows nSwitches : Nat} {paths : List (List Int)}
    {sf : List (List Nat)} (hlen : paths.length = nFlows) (hr : InRange nSwitches paths)
    (hb : buildSwitchFlows nFlows nSwitches paths = some sf) :
    Mirror nFlows nSwitches paths sf := by
  obtain ⟨sf1, e, m⟩ := buildSwitchFlows_mirror nFlows nSwitches paths hlen hr
  rw [hb] at e
  cases e
  exact m

/-! ## The scan pass -/

theorem gainLoop_eq (covered : List Bool) (flows : List Nat) (gain : Int) :
    gainLoop covered flows gain =
      gain + (flows.countP (fun f => !covered.getD f false) : Nat) := by
  induction flows generalizing gain with
  | nil => simp [gainLoop]
  | cons f rest ih =>
    unfold gainLoop
    rw [List.countP_cons]
    cases h : covered.getD f false with
    | false =>
      rw [if_pos rfl, ih]
      simp only [Bool.not_false, if_true]
      push_cast
      omega
    | true =>
      rw [if_neg (by simp), ih]
      simp

theorem scanGain_eq (sf : List (List Nat)) (covered : List Bool) (s : Nat) :
    scanGain sf covered s =
      ((sf.getD s []).countP (fun f => !covered.getD f false) : Nat) := by
  unfold scanGain
  rw [gainLoop_eq]
  simp

theorem scanGain_nonneg (sf : List (List Nat)) (covered : List Bool) (s : Nat) :
    0 ≤ scanGain sf covered s := by
  rw [scanGain_eq]
  omega

theorem scan_succ (n : Nat) (sf : List (List Nat)) (covered chosen : List Bool) :
    scan (n + 1) sf covered chosen = scanStep sf covered chosen (scan n sf covered chosen) n := by
  simp [scan, List.range_succ, List.foldl_append]

theorem scan_post (n : Nat) (sf : List (List Nat)) (covered chosen : List Bool) :
    ScanPost n sf covered chosen (scan n sf covered chosen) := by
  induction n with
  | zero =>
    left
    exact ⟨rfl, fun s hs => absurd hs (Nat.not_lt_zero s)⟩
  | succ n ih =>
    rw [scan_succ]
    generalize scan n sf covered chosen = best at ih
    unfold scanStep
    by_cases hc : chosen.getD n false = true
    · rw [if_pos hc]
      rcases ih with ⟨e, hall⟩ | ⟨b, hb1, hb2, hb3, hb4, hb5⟩
      · left
        refine ⟨e, fun s hs => ?_⟩
        rcases Nat.lt_succ_iff_lt_or_eq.mp hs with h | h
        · exact hall s h
        · rw [h]; exact hc
      · right
        refine ⟨b, hb1, by omega, hb3, hb4, fun s hs hsc => ?_⟩
        rcases Nat.lt_succ_iff_lt_or_eq.mp hs with h | h
        · exact hb5 s h hsc
        · rw [h, hc] at hsc
          cases hsc
    · rw [if_neg hc]
      have hc2 : chosen.getD n false = false := by simpa using hc
      have hnn := scanGain_nonneg sf covered n
      show ScanPost (n + 1) sf covered chosen
        (if scanGain sf covered n > best.2 then ((n : Int), scanGain sf covered n) else best)
      rcases ih with ⟨e, hall⟩ | ⟨b, hb1, hb2, hb3, hb4, hb5⟩
      · have hgt : scanGain sf covered n > best.2 := by rw [e]; show scanGain sf covered n > -1; omega
        rw [if_pos hgt]
        right
        refine ⟨n, rfl, by omega, hc2, rfl, fun s hs hsc => ?_⟩
        rcases Nat.lt_succ_iff_lt_or_eq.mp hs with h | h
        · rw [hall s h] at hsc
          cases hsc
        · subst h
          exact ⟨le_refl _, fun _ => le_refl _⟩
      · by_cases hgt : scanGain sf covered n > best.2
        · rw [if_pos hgt]
          right
          refine ⟨n, rfl, by omega, hc2, rfl, fun s hs hsc => ?_⟩
          rcases Nat.lt_succ_iff_lt_or_eq.mp hs with h | h
          · have := hb5 s h hsc
            constructor
            · show scanGain sf covered s ≤ scanGain sf covered n
              omega
            · intro he
              change scanGain sf covered s = scanGain sf covered n at he
              omega
          · subst h
            exact ⟨le_refl _, fun _ => le_refl _⟩
        · rw [if_neg hgt]
          right
          refine ⟨b, hb1, by omega, hb3, hb4, fun s hs hsc => ?_⟩
          rcases Nat.lt_succ_iff_lt_or_eq.mp hs with h | h
          · exact hb5 s h hsc
          · subst h
            exact ⟨by omega, fun _ => by omega⟩

/-! ## The marking loop -/

theorem markLoop_spec (flows : List Nat) (cov : List Bool) (cnt : Nat)
    (hf : ∀ f ∈ flows, f < cov.length) :
    (markLoop flows (cov, cnt)).1.length = cov.length ∧
    (∀ g, (markLoop flows (cov, cnt)).1.getD g false = true ↔
      (cov.getD g false = true ∨ g ∈ flows)) ∧
    (markLoop flows (cov, cnt)).2 + cov.count true =
      cnt + (markLoop flows (cov, cnt)).1.count true := by
  induction flows generalizing cov cnt with
  | nil =>
    refine ⟨rfl, fun g => by simp [markLoop], ?_⟩
    simp only [markLoop]
  | cons f rest ih =>
    have hfl : f < cov.length := hf f (by simp)
    unfold markLoop
    cases h : cov.getD f false with
    | false =>
      rw [if_pos rfl]
      obtain ⟨i1, i2, i3⟩ := ih (cov.set f true) (cnt + 1) (fun x hx => by
        rw [List.length_set]
        exact hf x (by simp [hx]))
      refine ⟨by rw [i1, List.length_set], fun g => ?_, ?_⟩
      · rw [i2, getD_set_eq]
        by_cases hg : f = g
        · subst hg
          simp [hfl]
        · have hg2 : ¬ (g = f) := fun e => hg e.symm
          simp [hg, hg2]
      · rw [count_set_true cov f h hfl] at i3
        omega
    | true =>
      rw [if_neg (by simp)]
      obtain ⟨i1, i2, i3⟩ := ih cov cnt (fun x hx => hf x (by simp [hx]))
      refine ⟨i1, fun g => ?_, i3⟩
      rw [i2]
      constructor
      · rintro (hc | hm)
        · exact Or.inl hc
        · exact Or.inr (by simp [hm])
      · rintro (hc | hm)
        · exact Or.inl hc
        · rcases List.mem_cons.mp hm with e | hm2
          · left
            rw [e]
            exact h
          · exact Or.inr hm2

/-! ## One iteration of the selection loop -/

theorem iterate_next {nFlows nSwitches : Nat} {sf : List (List Nat)} {st st1 : State}
    (h : iterate nFlows nSwitches sf st = .next st1) :
    st.coveredCount < nFlows ∧ ∃ b, Selects nSwitches sf st b ∧ st1 = applyStep sf st b := by
  unfold iterate at h
  by_cases hc : st.coveredCount < nFlows
  · rw [if_pos hc] at h
    refine ⟨hc, ?_⟩
    have hp := scan_post nSwitches sf st.covered st.chosen
    generalize scan nSwitches sf st.covered st.chosen = best at h hp
    simp only at h
    by_cases hb : best.1 = -1 ∨ best.2 = 0
    · rw [if_pos hb] at h
      cases h
    · rw [if_neg hb] at h
      rcases hp with ⟨e, _⟩ | ⟨b, hb1, hb2, hb3, hb4, hb5⟩
      · exact absurd (Or.inl (by rw [e])) hb
      · have hpos : 0 < scanGain sf st.covered b := by
          have := scanGain_nonneg sf st.covered b
          have hne : best.2 ≠ 0 := fun e => hb (Or.inr e)
          omega
        refine ⟨b, ⟨hb2, hb3, hpos, fun s hs hsc => ?_⟩, ?_⟩
        · rw [← hb4]
          exact hb5 s hs hsc
        · injection h with h
          rw [← h]
          simp [applyStep, hb1, hb4]
  · rw [if_neg hc] at h
    cases h

theorem iterate_infeasible {nFlows nSwitches : Nat} {sf : List (List Nat)} {st : State}
    (h : iterate nFlows nSwitches sf st = .infeasible) :
    st.coveredCount < nFlows ∧
      ∀ s, s < nSwitches → st.chosen.getD s false = false → scanGain sf st.covered s = 0 := by
  unfold iterate at h
  by_cases hc : st.coveredCount < nFlows
  · rw [if_pos hc] at h
    refine ⟨hc, ?_⟩
    have hp := scan_post nSwitches sf st.covered st.chosen
    generalize scan nSwitches sf st.covered st.chosen = best at h hp
    simp only at h
    by_cases hb : best.1 = -1 ∨ best.2 = 0
    · intro s hs hsc
      rcases hp with ⟨_, hall⟩ | ⟨b, hb1, hb2, hb3, hb4, hb5⟩
      · rw [hall s hs] at hsc
        cases hsc
      · have h0 : best.2 = 0 := by
          rcases hb with e | e
          · omega
          · exact e
        have := (hb5 s hs hsc).1
        have := scanGain_nonneg sf st.covered s
        omega
    · rw [if_neg hb] at h
      cases h
  · rw [if_neg hc] at h
    cases h

theorem iterate_done {nFlows nSwitches : Nat} {sf : List (List Nat)} {st : State}
    (h : iterate nFlows nSwitches sf st = .done) : nFlows ≤ st.coveredCount := by
  unfold iterate at h
  by_cases hc : st.coveredCount < nFlows
  · rw [if_pos hc] at h
    simp only at h
    split at h <;> cases h
  · omega

/-! ## The loop invariant -/

theorem inv_init (nFlows nSwitches : Nat) (paths : List (List Int)) :
    Inv nFlows nSwitches paths (initState nFlows nSwitches) where
  covered_len := by simp [initState]
  chosen_len := by simp [initState]
  count_eq := by simp [initState, List.count_replicate]
  covered_iff := by
    intro f _
    simp only [initState, getD_replicate_eq]
    simp
  trace_chosen := by simp [initState]
  trace_nodup := by simp [initState]
  step_eq := by simp [initState]

theorem mirror_lt {nFlows nSwitches : Nat} {paths : List (List Int)} {sf : List (List Nat)}
    (hm : Mirror nFlows nSwitches paths sf) (s g : Nat) (h : g ∈ sf.getD s []) : g < nFlows :=
  ((hm.mem_iff s g).mp h).1

theorem inv_step {nFlows nSwitches : Nat} {paths : List (List Int)} {sf : List (List Nat)}
    {st : State} {b : Nat} (hm : Mirror nFlows nSwitches paths sf)
    (hi : Inv nFlows nSwitches paths st) (hs : Selects nSwitches sf st b) :
    Inv nFlows nSwitches paths (applyStep sf st b) := by
  obtain ⟨hb1, hb2, _, _⟩ := hs
  obtain ⟨m1, m2, m3⟩ := markLoop_spec (sf.getD b []) st.covered st.coveredCount
    (fun f hf => by rw [hi.covered_len]; exact mirror_lt hm b f hf)
  have hbl : b < st.chosen.length := by rw [hi.chosen_len]; exact hb1
  refine ⟨?_, ?_, ?_, ?_, ?_, ?_, ?_⟩
  · show (markLoop (sf.getD b []) (st.covered, st.coveredCount)).1.length = nFlows
    rw [m1, hi.covered_len]
  · show (st.chosen.set b true).length = nSwitches
    rw [List.length_set, hi.chosen_len]
  · show (markLoop (sf.getD b []) (st.covered, st.coveredCount)).2 =
      (markLoop (sf.getD b []) (st.covered, st.coveredCount)).1.count true
    have := hi.count_eq
    omega
  · intro f hf
    show (markLoop (sf.getD b []) (st.covered, st.coveredCount)).1.getD f false = true ↔
      ∃ s : Nat, (s : Int) ∈ paths.getD f [] ∧ (st.chosen.set b true).getD s false = true
    rw [m2, hi.covered_iff f hf, hm.mem_iff]
    constructor
    · rintro (⟨s, hs1, hs2⟩ | ⟨_, hbp⟩)
      · refine ⟨s, hs1, ?_⟩
        rw [getD_set_eq]
        split
        · rfl
        · exact hs2
      · refine ⟨b, hbp, ?_⟩
        rw [getD_set_eq, if_pos ⟨rfl, hbl⟩]
    · rintro ⟨s, hs1, hs2⟩
      rw [getD_set_eq] at hs2
      by_cases hbs : b = s
      · subst hbs
        exact Or.inr ⟨hf, hs1⟩
      · rw [if_neg (fun h => hbs h.1)] at hs2
        exact Or.inl ⟨s, hs1, hs2⟩
  · intro r hr
    change r ∈ st.trace ++ [_] at hr
    show ∃ s : Nat, r.switch = (s : Int) ∧ (st.chosen.set b true).getD s false = true
    rcases List.mem_append.mp hr with h | h
    · obtain ⟨s, e, hc⟩ := hi.trace_chosen r h
      refine ⟨s, e, ?_⟩
      rw [getD_set_eq]
      split
      · rfl
      · exact hc
    · rw [List.mem_singleton] at h
      refine ⟨b, by rw [h], ?_⟩
      rw [getD_set_eq, if_pos ⟨rfl, hbl⟩]
  · have e : (applyStep sf st b).trace.map (fun r => r.switch) =
        st.trace.map (fun r => r.switch) ++ [(b : Int)] := by
      simp [applyStep]
    rw [e, List.nodup_append]
    refine ⟨hi.trace_nodup, by simp, ?_⟩
    intro x hx hx2
    rw [List.mem_singleton] at hx2
    obtain ⟨r, hr, e3⟩ := List.mem_map.mp hx
    obtain ⟨s, e2, hc⟩ := hi.trace_chosen r hr
    have : s = b := by omega
    rw [this, hb2] at hc
    cases hc
  · simp [applyStep, hi.step_eq]

theorem inv_iterate {nFlows nSwitches : Nat} {paths : List (List Int)} {sf : List (List Nat)}
    {st st1 : State} (hm : Mirror nFlows nSwitches paths sf)
    (hi : Inv nFlows nSwitches paths st) (h : iterate nFlows nSwitches sf st = .next st1) :
    Inv nFlows nSwitches paths st1 := by
  obtain ⟨_, b, hs, e⟩ := iterate_next h
  rw [e]
  exact inv_step hm hi hs

theorem inv_stateAfter {nFlows nSwitches : Nat} {paths : List (List Int)}
    {sf : List (List Nat)} (hm : Mirror nFlows nSwitches paths sf) (st0 : State)
    (h0 : Inv nFlows nSwitches paths st0) (k : Nat) (st : State)
    (h : stateAfter nFlows nSwitches sf st0 k = some st) : Inv nFlows nSwitches paths st := by
  induction k generalizing st with
  | zero =>
    simp only [stateAfter, Option.some.injEq] at h
    rw [← h]
    exact h0
  | succ k ih =>
    simp only [stateAfter] at h
    cases hk : stateAfter nFlows nSwitches sf st0 k with
    | none => rw [hk] at h; cases h
    | some st1 =>
      rw [hk] at h
      simp only at h
      cases hit : iterate nFlows nSwitches sf st1 with
      | next st2 =>
        rw [hit] at h
        simp only [Option.some.injEq] at h
        rw [← h]
        exact inv_iterate hm (ih st1 hk) hit
      | infeasible => rw [hit] at h; cases h
      | done => rw [hit] at h; cases h

/-! ## Termination of the selection loop -/

theorem count_set_false (l : List Bool) (i : Nat) (h : l.getD i false = false)
    (hi : i < l.length) : (l.set i true).count false + 1 = l.count false := by
  induction l generalizing i with
  | nil => simp at hi
  | cons a t ih =>
    cases i with
    | zero =>
      simp at h
      subst h
      simp
    | succ i =>
      simp at h hi
      have := ih i (by simpa using h) hi
      simp [List.count_cons, ← this]
      omega

theorem stateAfter_succ_front (nFlows nSwitches : Nat) (sf : List (List Nat)) (st : State)
    (k : Nat) :
    stateAfter nFlows nSwitches sf st (k + 1) =
      match iterate nFlows nSwitches sf st with
      | .next st1 => stateAfter nFlows nSwitches sf st1 k
      | _ => none := by
  induction k generalizing st with
  | zero =>
    simp only [stateAfter]
  | succ k ih =>
    rw [stateAfter, ih]
    cases hit : iterate nFlows nSwitches sf st with
    | next st1 => simp only [stateAfter]
    | infeasible => simp only
    | done => simp only

theorem whileLoop_stops {nFlows nSwitches : Nat} {sf : List (List Nat)} (fuel : Nat)
    (st : State) (r : Result) (h : whileLoop nFlows nSwitches sf fuel st = .returned r) :
    (∃ k, stateAfter nFlows nSwitches sf st k = some r.final) ∧
      iterate nFlows nSwitches sf r.final = (if r.infeasible = true then .infeasible else .done) := by
  induction fuel generalizing st with
  | zero => simp [whileLoop] at h
  | succ fuel ih =>
    unfold whileLoop at h
    cases hit : iterate nFlows nSwitches sf st with
    | next st1 =>
      rw [hit] at h
      obtain ⟨⟨k, hk⟩, hstop⟩ := ih st1 h
      refine ⟨⟨k + 1, ?_⟩, hstop⟩
      rw [stateAfter_succ_front, hit]
      exact hk
    | infeasible =>
      rw [hit] at h
      injection h with h
      subst h
      exact ⟨⟨0, rfl⟩, by simpa using hit⟩
    | done =>
      rw [hit] at h
      injection h with h
      subst h
      exact ⟨⟨0, rfl⟩, by simpa using hit⟩

theorem whileLoop_fuel_mono {nFlows nSwitches : Nat} {sf : List (List Nat)} (fuel extra : Nat)
    (st : State) (r : Result) (h : whileLoop nFlows nSwitches sf fuel st = .returned r) :
    whileLoop nFlows nSwitches sf (fuel + extra) st = .returned r := by
  induction fuel generalizing st with
  | zero => simp [whileLoop] at h
  | succ fuel ih =>
    rw [Nat.add_right_comm]
    unfold whileLoop at h ⊢
    cases hit : iterate nFlows nSwitches sf st with
    | next st1 =>
      rw [hit] at h
      exact ih st1 h
    | infeasible => rw [hit] at h; exact h
    | done => rw [hit] at h; exact h

theorem greedy_set_cover_fuel_mono (fuel extra nFlows nSwitches : Nat)
    (paths : List (List Int)) (r : Result)
    (h : greedy_set_cover fuel nFlows nSwitches paths = .returned r) :
    greedy_set_cover (fuel + extra) nFlows nSwitches paths = .returned r := by
  unfold greedy_set_cover at h ⊢
  cases hb : buildSwitchFlows nFlows nSwitches paths with
  | none =>
    rw [hb] at h
    cases h
  | some sf =>
    rw [hb] at h
    exact whileLoop_fuel_mono fuel extra _ r h

theorem whileLoop_returns {nFlows nSwitches : Nat} {paths : List (List Int)}
    {sf : List (List Nat)} (hm : Mirror nFlows nSwitches paths sf) (fuel : Nat) (st : State)
    (hi : Inv nFlows nSwitches paths st) (hfuel : st.chosen.count false < fuel) :
    ∃ r, whileLoop nFlows nSwitches sf fuel st = .returned r ∧
      Inv nFlows nSwitches paths r.final := by
  induction fuel generalizing st with
  | zero => omega
  | succ fuel ih =>
    unfold whileLoop
    cases hit : iterate nFlows nSwitches sf st with
    | next st1 =>
      obtain ⟨_, b, hs, e⟩ := iterate_next hit
      have hdec : st1.chosen.count false + 1 = st.chosen.count false := by
        rw [e]
        exact count_set_false st.chosen b hs.2.1 (by rw [hi.chosen_len]; exact hs.1)
      exact ih st1 (inv_iterate hm hi hit) (by omega)
    | infeasible => exact ⟨_, rfl, hi⟩
    | done => exact ⟨_, rfl, hi⟩

theorem greedy_returns {nFlows nSwitches : Nat} {paths : List (List Int)}
    (hlen : paths.length = nFlows) (hr : InRange nSwitches paths) (fuel : Nat)
    (hfuel : nSwitches < fuel) :
    ∃ sf r, buildSwitchFlows nFlows nSwitches paths = some sf ∧
      Mirror nFlows nSwitches paths sf ∧
      greedy_set_cover fuel nFlows nSwitches paths = .returned r ∧
      Inv nFlows nSwitches paths r.final ∧
      (∃ k, stateAfter nFlows nSwitches sf (initState nFlows nSwitches) k = some r.final) ∧
      iterate nFlows nSwitches sf r.final =
        (if r.infeasible = true then .infeasible else .done) := by
  obtain ⟨sf, hb, hm⟩ := buildSwitchFlows_mirror nFlows nSwitches paths hlen hr
  obtain ⟨r, hw, hinv⟩ := whileLoop_returns hm fuel (initState nFlows nSwitches)
    (inv_init nFlows nSwitches paths) (by simpa [initState, List.count_replicate] using hfuel)
  obtain ⟨hk, hstop⟩ := whileLoop_stops fuel _ r hw
  refine ⟨sf, r, hb, hm, ?_, hinv, hk, hstop⟩
  unfold greedy_set_cover
  rw [hb]
  exact hw

/-! ## The state in which the loop stops -/

theorem getD_mem_of_lt (paths : List (List Int)) (f : Nat) (hf : f < paths.length) :
    paths.getD f [] ∈ paths := by
  rw [List.getD_eq_getElem?_getD, List.getElem?_eq_getElem hf]
  exact List.getElem_mem hf

theorem getD_true_of_count (l : List Bool) (h : l.length ≤ l.count true) (i : Nat)
    (hi : i < l.length) : l.getD i false = true := by
  have hc : l.count true = l.length := le_antisymm (List.count_le_length true l) h
  have hall := List.count_eq_length.mp hc
  rw [List.getD_eq_getElem?_getD, List.getElem?_eq_getElem hi]
  exact (hall _ (List.getElem_mem hi)).symm

theorem count_lt_of_getD_false (l : List Bool) (i : Nat) (hi : i < l.length)
    (h : l.getD i false = false) : l.count true < l.length := by
  by_contra hc
  have := getD_true_of_count l (by omega) i hi
  rw [h] at this
  cases this

theorem empty_path_uncovered {nFlows nSwitches : Nat} {paths : List (List Int)} {st : State}
    (hi : Inv nFlows nSwitches paths st) (f : Nat) (hf : f < nFlows)
    (he : paths.getD f [] = []) : st.covered.getD f false = false := by
  cases hc : st.covered.getD f false with
  | false => rfl
  | true =>
    obtain ⟨s, hs, _⟩ := (hi.covered_iff f hf).mp hc
    rw [he] at hs
    cases hs

theorem stopped_uncovered {nFlows nSwitches : Nat} {paths : List (List Int)}
    {sf : List (List Nat)} {st : State} (hlen : paths.length = nFlows)
    (hr : InRange nSwitches paths) (hm : Mirror nFlows nSwitches paths sf)
    (hi : Inv nFlows nSwitches paths st)
    (hstop : iterate nFlows nSwitches sf st = .infeasible ∨
      iterate nFlows nSwitches sf st = .done)
    (f : Nat) (hf : f < nFlows) :
    st.covered.getD f false = false ↔ paths.getD f [] = [] := by
  refine ⟨fun hc => ?_, empty_path_uncovered hi f hf⟩
  cases hp : paths.getD f [] with
  | nil => rfl
  | cons sw rest =>
    exfalso
    have hmem : sw ∈ paths.getD f [] := by rw [hp]; simp
    obtain ⟨h0, h1⟩ := hr _ (getD_mem_of_lt paths f (by omega)) sw hmem
    have hsw : ((sw.toNat : Nat) : Int) = sw := Int.toNat_of_nonneg h0
    have hlt : sw.toNat < nSwitches := by omega
    have hunch : st.chosen.getD sw.toNat false = false := by
      cases hch : st.chosen.getD sw.toNat false with
      | false => rfl
      | true =>
        have := (hi.covered_iff f hf).mpr ⟨sw.toNat, by rw [hsw]; exact hmem, hch⟩
        rw [hc] at this
        cases this
    rcases hstop with hinf | hdone
    · have hz := (iterate_infeasible hinf).2 sw.toNat hlt hunch
      rw [scanGain_eq] at hz
      have hfm : f ∈ sf.getD sw.toNat [] := (hm.mem_iff _ _).mpr ⟨hf, by rw [hsw]; exact hmem⟩
      have hpos : 0 < (sf.getD sw.toNat []).countP (fun g => !st.covered.getD g false) :=
        List.countP_pos_iff.mpr ⟨f, hfm, by rw [hc]; rfl⟩
      omega
    · have hd := iterate_done hdone
      have := getD_true_of_count st.covered
        (by rw [hi.covered_len, ← hi.count_eq]; exact hd) f (by rw [hi.covered_len]; exact hf)
      rw [hc] at this
      cases this

theorem count_false_eq_empty (l : List Bool) (ps : List (List Int))
    (hlen : l.length = ps.length)
    (h : ∀ i, i < l.length → (l.getD i false = false ↔ ps.getD i [] = [])) :
    l.count false = ps.countP (fun p => p.isEmpty) := by
  induction l generalizing ps with
  | nil =>
    cases ps with
    | nil => rfl
    | cons _ _ => simp at hlen
  | cons a t ih =>
    cases ps with
    | nil => simp at hlen
    | cons p q =>
      have h0 := h 0 (by simp)
      have ht := ih q (by simpa using hlen) (fun i hi => by
        have := h (i + 1) (by simpa using hi)
        simpa using this)
      simp only [List.getD_cons_zero] at h0
      rw [List.count_cons, List.countP_cons, ht]
      cases a with
      | false =>
        have : p = [] := h0.mp rfl
        simp [this]
      | true =>
        have : p ≠ [] := fun e => by
          have := h0.mpr e
          cases this
        cases p with
        | nil => exact absurd rfl this
        | cons _ _ => simp

theorem count_true_add_false (l : List Bool) : l.count true + l.count false = l.length := by
  induction l with
  | nil => rfl
  | cons a t ih =>
    cases a <;> simp [List.count_cons] <;> omega

/-! ## Coverage -/

/-- C1 (coverage): when `paths` has `nFlows` entries, every switch id is in
`[0, nSwitches)` and no path is empty, `greedy_set_cover` returns, and in the returned
vector every flow has a chosen switch on its path. -/
theorem greedy_covers_every_flow (fuel nFlows nSwitches : Nat) (paths : List (List Int))
    (hlen : paths.length = nFlows) (hr : InRange nSwitches paths)
    (hne : ∀ path ∈ paths, path ≠ []) (hfuel : nSwitches < fuel) :
    ∃ r, greedy_set_cover fuel nFlows nSwitches paths = .returned r ∧
      r.final.chosen.length = nSwitches ∧
      ∀ f : Nat, f < nFlows →
        ∃ s : Nat, s < nSwitches ∧ (s : Int) ∈ paths.getD f [] ∧
          r.final.chosen.getD s false = true := by
  obtain ⟨sf, r, _, hm, hg, hinv, _, hstop⟩ := greedy_returns hlen hr fuel hfuel
  refine ⟨r, hg, hinv.chosen_len, fun f hf => ?_⟩
  have hstop2 : iterate nFlows nSwitches sf r.final = .infeasible ∨
      iterate nFlows nSwitches sf r.final = .done := by
    rw [hstop]
    cases r.infeasible <;> simp
  have hcov : r.final.covered.getD f false = true := by
    cases hc : r.final.covered.getD f false with
    | true => rfl
    | false =>
      have := (stopped_uncovered hlen hr hm hinv hstop2 f hf).mp hc
      exact absurd this (hne _ (getD_mem_of_lt paths f (by omega)))
  obtain ⟨s, hs1, hs2⟩ := (hinv.covered_iff f hf).mp hcov
  obtain ⟨_, h1⟩ := hr _ (getD_mem_of_lt paths f (by omega)) _ hs1
  exact ⟨s, by omega, hs1, hs2⟩

theorem greedy_covers_every_flow_witness :
    ([[0], [0, 1], [1]] : List (List Int)).length = 3 ∧ InRange 2 [[0], [0, 1], [1]] ∧
    (∀ path ∈ ([[0], [0, 1], [1]] : List (List Int)), path ≠ []) ∧ 2 < 3 ∧
    ∃ r, greedy_set_cover 3 3 2 [[0], [0, 1], [1]] = .returned r ∧
      r.final.chosen.length = 2 ∧
      ∀ f : Nat, f < 3 →
        ∃ s : Nat, s < 2 ∧ (s : Int) ∈ ([[0], [0, 1], [1]] : List (List Int)).getD f [] ∧
          r.final.chosen.getD s false = true :=
  ⟨by decide, by decide, by decide, by decide,
    greedy_covers_every_flow 3 3 2 [[0], [0, 1], [1]] (by decide) (by decide) (by decide) (by decide)⟩

/-! ## Selection steps -/

theorem stateAfter_succ_next {nFlows nSwitches : Nat} {sf : List (List Nat)}
    {st0 st st1 : State} {k : Nat} (hk : stateAfter nFlows nSwitches sf st0 k = some st)
    (hk1 : stateAfter nFlows nSwitches sf st0 (k + 1) = some st1) :
    iterate nFlows nSwitches sf st = .next st1 := by
  simp only [stateAfter, hk] at hk1
  cases hit : iterate nFlows nSwitches sf st with
  | next st2 =>
    rw [hit] at hk1
    simp only [Option.some.injEq] at hk1
    rw [hk1]
  | infeasible => rw [hit] at hk1; cases hk1
  | done => rw [hit] at hk1; cases hk1

/-- C4 (tie-break): the switch selected by a step is unchosen, its gain as computed by
the scan pass is maximal among the unchosen switches, and it has the smallest index among
the unchosen switches with that gain; the step appends exactly one record to the log.
On `paths = [[0], [0, 1], [1]]` with two switches the log is
`(0, 2, 2), (1, 1, 3)` and both switches end up chosen. -/
theorem selected_switch_is_first_maximal (nFlows nSwitches : Nat) (paths : List (List Int)) (sf : List (List Nat))
    (k : Nat) (st st1 : State)
    (_hb : buildSwitchFlows nFlows nSwitches paths = some sf)
    (hk : stateAfter nFlows nSwitches sf (initState nFlows nSwitches) k = some st)
    (hk1 : stateAfter nFlows nSwitches sf (initState nFlows nSwitches) (k + 1) = some st1) :
    (∃ b : Nat, b < nSwitches ∧ st.chosen.getD b false = false ∧
      st1.chosen = st.chosen.set b true ∧
      st1.trace = st.trace ++ [⟨(b : Int), scanGain sf st.covered b, st1.coveredCount⟩] ∧
      (∀ s : Nat, s < nSwitches → st.chosen.getD s false = false →
        scanGain sf st.covered s ≤ scanGain sf st.covered b) ∧
      (∀ s : Nat, s < nSwitches → st.chosen.getD s false = false →
        scanGain sf st.covered s = scanGain sf st.covered b → b ≤ s)) ∧
    greedy_set_cover 3 3 2 [[0], [0, 1], [1]] =
      .returned ⟨⟨[true, true, true], [true, true], 3, 2, [⟨0, 2, 2⟩, ⟨1, 1, 3⟩]⟩, false⟩ := by
  refine ⟨?_, by decide⟩
  obtain ⟨_, b, hs, e⟩ := iterate_next (stateAfter_succ_next hk hk1)
  refine ⟨b, hs.1, hs.2.1, by rw [e]; rfl, by rw [e]; rfl,
    fun s h1 h2 => (hs.2.2.2 s h1 h2).1, fun s h1 h2 => (hs.2.2.2 s h1 h2).2⟩

theorem selected_switch_is_first_maximal_witness :
    buildSwitchFlows 3 2 [[0], [0, 1], [1]] = some [[0, 1], [1, 2]] ∧
    stateAfter 3 2 [[0, 1], [1, 2]] (initState 3 2) 0 = some (initState 3 2) ∧
    stateAfter 3 2 [[0, 1], [1, 2]] (initState 3 2) 1 =
      some ⟨[true, true, false], [true, false], 2, 1, [⟨0, 2, 2⟩]⟩ ∧
    (∃ b : Nat, b < 2 ∧ (initState 3 2).chosen.getD b false = false ∧
      [true, false] = (initState 3 2).chosen.set b true ∧
      [(⟨0, 2, 2⟩ : StepRecord)] = (initState 3 2).trace ++
        [⟨(b : Int), scanGain [[0, 1], [1, 2]] (initState 3 2).covered b, 2⟩] ∧
      (∀ s : Nat, s < 2 → (initState 3 2).chosen.getD s false = false →
        scanGain [[0, 1], [1, 2]] (initState 3 2).covered s ≤
          scanGain [[0, 1], [1, 2]] (initState 3 2).covered b) ∧
      (∀ s : Nat, s < 2 → (initState 3 2).chosen.getD s false = false →
        scanGain [[0, 1], [1, 2]] (initState 3 2).covered s =
          scanGain [[0, 1], [1, 2]] (initState 3 2).covered b → b ≤ s)) :=
  ⟨by decide, by decide, by decide,
    (selected_switch_is_first_maximal 3 2 [[0], [0, 1], [1]] [[0, 1], [1, 2]] 0 (initState 3 2)
      ⟨[true, true, false], [true, false], 2, 1, [⟨0, 2, 2⟩]⟩
      (by decide) (by decide) (by decide)).1⟩

/-! ## Infeasibility -/

/-- C5 (infeasibility and terminal state): on in-range input with `nFlows` paths the
solver returns; in the final state the uncovered flows are exactly the flows with an empty
path; the `remaining flows cannot be covered` branch is taken exactly when some flow has
an empty path, and then `coveredCount < nFlows`; the number of uncovered flows is the
number of empty paths.  On `paths = [[0], [0, 1], []]` with two switches the solver stops
with `chosen = [true, false]` and one uncovered flow. -/
theorem stops_with_empty_paths_uncovered (fuel nFlows nSwitches : Nat) (paths : List (List Int))
    (hlen : paths.length = nFlows) (hr : InRange nSwitches paths) (hfuel : nSwitches < fuel) :
    (∃ r, greedy_set_cover fuel nFlows nSwitches paths = .returned r ∧
      (∀ f : Nat, f < nFlows → (r.final.covered.getD f false = false ↔ paths.getD f [] = [])) ∧
      (r.infeasible = true ↔ ∃ f : Nat, f < nFlows ∧ paths.getD f [] = []) ∧
      (r.infeasible = true → r.final.coveredCount < nFlows) ∧
      (r.infeasible = false → r.final.coveredCount = nFlows) ∧
      r.final.covered.count false = paths.countP (fun p => p.isEmpty) ∧
      r.final.coveredCount + paths.countP (fun p => p.isEmpty) = nFlows) ∧
    greedy_set_cover 3 3 2 [[0], [0, 1], []] =
      .returned ⟨⟨[true, true, false], [true, false], 2, 1, [⟨0, 2, 2⟩]⟩, true⟩ := by
  refine ⟨?_, by decide⟩
  obtain ⟨sf, r, _, hm, hg, hinv, _, hstop⟩ := greedy_returns hlen hr fuel hfuel
  have hstop2 : iterate nFlows nSwitches sf r.final = .infeasible ∨
      iterate nFlows nSwitches sf r.final = .done := by
    rw [hstop]
    cases r.infeasible <;> simp
  have hunc := stopped_uncovered hlen hr hm hinv hstop2
  have hcf := count_false_eq_empty r.final.covered paths (by rw [hinv.covered_len, hlen])
    (fun i hi => hunc i (by rw [← hinv.covered_len]; exact hi))
  have hsum := count_true_add_false r.final.covered
  rw [hinv.covered_len, ← hinv.count_eq] at hsum
  have hlt : r.infeasible = true → r.final.coveredCount < nFlows := by
    intro h
    rw [h] at hstop
    exact (iterate_infeasible hstop).1
  have hge : r.infeasible = false → r.final.coveredCount = nFlows := by
    intro h
    rw [h] at hstop
    have := iterate_done hstop
    omega
  refine ⟨r, hg, hunc, ⟨fun h => ?_, fun h => ?_⟩, hlt, hge, hcf, by omega⟩
  · have h1 := hlt h
    have hpos : 0 < r.final.covered.count false := by omega
    obtain ⟨f, hf, hfe⟩ : ∃ f : Nat, f < r.final.covered.length ∧
        r.final.covered.getD f false = false := by
      have hmem : false ∈ r.final.covered := List.count_pos_iff.mp hpos
      obtain ⟨i, hi, e⟩ := List.getElem_of_mem hmem
      exact ⟨i, hi, by rw [List.getD_eq_getElem _ _ hi, e]⟩
    rw [hinv.covered_len] at hf
    exact ⟨f, hf, (hunc f hf).mp hfe⟩
  · obtain ⟨f, hf, he⟩ := h
    have h1 := (hunc f hf).mpr he
    have h2 := count_lt_of_getD_false r.final.covered f (by rw [hinv.covered_len]; exact hf) h1
    rw [← hinv.count_eq, hinv.covered_len] at h2
    cases hri : r.infeasible with
    | true => rfl
    | false =>
      have := hge hri
      omega

theorem stops_with_empty_paths_uncovered_witness :
    ([[0], [0, 1], []] : List (List Int)).length = 3 ∧ InRange 2 [[0], [0, 1], []] ∧ 2 < 3 ∧
    ∃ r, greedy_set_cover 3 3 2 [[0], [0, 1], []] = .returned r ∧
      (∀ f : Nat, f < 3 → (r.final.covered.getD f false = false ↔
        ([[0], [0, 1], []] : List (List Int)).getD f [] = [])) ∧
      (r.infeasible = true ↔
        ∃ f : Nat, f < 3 ∧ ([[0], [0, 1], []] : List (List Int)).getD f [] = []) ∧
      (r.infeasible = true → r.final.coveredCount < 3) ∧
      (r.infeasible = false → r.final.coveredCount = 3) ∧
      r.final.covered.count false =
        ([[0], [0, 1], []] : List (List Int)).countP (fun p => p.isEmpty) ∧
      r.final.coveredCount +
        ([[0], [0, 1], []] : List (List Int)).countP (fun p => p.isEmpty) = 3 :=
  ⟨by decide, by decide, by decide,
    (stops_with_empty_paths_uncovered 3 3 2 [[0], [0, 1], []] (by decide) (by decide) (by decide)).1⟩

/-! ## The coverage-state invariant -/

/-- C6 (coverage-state invariant): on in-range input, in the state before the first
iteration (`k = 0`), after every completed iteration (`k > 0`) and in the state the solver
returns with, `covered[f]` holds exactly when some chosen switch occurs in `paths[f]`. -/
theorem covered_iff_chosen_on_path (fuel nFlows nSwitches : Nat) (paths : List (List Int))
    (sf : List (List Nat)) (k : Nat) (st : State)
    (hlen : paths.length = nFlows) (hr : InRange nSwitches paths)
    (hb : buildSwitchFlows nFlows nSwitches paths = some sf)
    (hk : stateAfter nFlows nSwitches sf (initState nFlows nSwitches) k = some st)
    (hfuel : nSwitches < fuel) :
    (∀ f : Nat, f < nFlows →
      (st.covered.getD f false = true ↔
        ∃ s : Nat, s < nSwitches ∧ (s : Int) ∈ paths.getD f [] ∧
          st.chosen.getD s false = true)) ∧
    ∃ r, greedy_set_cover fuel nFlows nSwitches paths = .returned r ∧
      ∀ f : Nat, f < nFlows →
        (r.final.covered.getD f false = true ↔
          ∃ s : Nat, s < nSwitches ∧ (s : Int) ∈ paths.getD f [] ∧
            r.final.chosen.getD s false = true) := by
  have hm := mirror_of_build hlen hr hb
  have key : ∀ st2 : State, Inv nFlows nSwitches paths st2 → ∀ f : Nat, f < nFlows →
      (st2.covered.getD f false = true ↔
        ∃ s : Nat, s < nSwitches ∧ (s : Int) ∈ paths.getD f [] ∧
          st2.chosen.getD s false = true) := by
    intro st2 hi f hf
    rw [hi.covered_iff f hf]
    constructor
    · rintro ⟨s, h1, h2⟩
      obtain ⟨_, h3⟩ := hr _ (getD_mem_of_lt paths f (by omega)) _ h1
      exact ⟨s, by omega, h1, h2⟩
    · rintro ⟨s, _, h1, h2⟩
      exact ⟨s, h1, h2⟩
  refine ⟨key st (inv_stateAfter hm _ (inv_init nFlows nSwitches paths) k st hk), ?_⟩
  obtain ⟨_, r, _, _, hg, hinv, _, _⟩ := greedy_returns hlen hr fuel hfuel
  exact ⟨r, hg, key r.final hinv⟩

theorem covered_iff_chosen_on_path_witness :
    ([[0], [0, 1], [1]] : List (List Int)).length = 3 ∧ InRange 2 [[0], [0, 1], [1]] ∧
    buildSwitchFlows 3 2 [[0], [0, 1], [1]] = some [[0, 1], [1, 2]] ∧
    stateAfter 3 2 [[0, 1], [1, 2]] (initState 3 2) 1 =
      some ⟨[true, true, false], [true, false], 2, 1, [⟨0, 2, 2⟩]⟩ ∧ 2 < 3 ∧
    (∀ f : Nat, f < 3 →
      (([true, true, false] : List Bool).getD f false = true ↔
        ∃ s : Nat, s < 2 ∧ (s : Int) ∈ ([[0], [0, 1], [1]] : List (List Int)).getD f [] ∧
          ([true, false] : List Bool).getD s false = true)) ∧
    ∃ r, greedy_set_cover 3 3 2 [[0], [0, 1], [1]] = .returned r ∧
      ∀ f : Nat, f < 3 →
        (r.final.covered.getD f false = true ↔
          ∃ s : Nat, s < 2 ∧ (s : Int) ∈ ([[0], [0, 1], [1]] : List (List Int)).getD f [] ∧
            r.final.chosen.getD s false = true) :=
  ⟨by decide, by decide, by decide, by decide, by decide,
    covered_iff_chosen_on_path 3 3 2 [[0], [0, 1], [1]] [[0, 1], [1, 2]] 1
      ⟨[true, true, false], [true, false], 2, 1, [⟨0, 2, 2⟩]⟩
      (by decide) (by decide) (by decide) (by decide) (by decide)⟩

/-! ## The reverse mapping preserves multiplicity -/

/-- C7 (reverse index): on in-range input with `nFlows` paths the reverse mapping is
built, has `nSwitches` entries, and `f` occurs in `switchFlows[s]` as often as `s`
occurs in `paths[f]`; a switch on no path has an empty list, and every stored flow
index is below `nFlows`. -/
theorem switchFlows_count_eq_path_count (nFlows nSwitches : Nat) (paths : List (List Int))
    (hlen : paths.length = nFlows) (hr : InRange nSwitches paths) :
    ∃ sf, buildSwitchFlows nFlows nSwitches paths = some sf ∧ sf.length = nSwitches ∧
      (∀ s f : Nat, s < nSwitches → f < nFlows →
        (sf.getD s []).count f = (paths.getD f []).count (s : Int)) ∧
      (∀ s : Nat, s < nSwitches → (∀ f : Nat, f < nFlows → (s : Int) ∉ paths.getD f []) →
        sf.getD s [] = []) ∧
      (∀ s f : Nat, f ∈ sf.getD s [] → f < nFlows) := by
  obtain ⟨sf, hb, hl, hc⟩ := buildSwitchFlows_spec nFlows nSwitches paths hlen hr
  have hmem : ∀ s f : Nat, f ∈ sf.getD s [] → f < nFlows ∧ (s : Int) ∈ paths.getD f [] := by
    intro s f h
    have hpos := List.count_pos_iff.mpr h
    rw [hc] at hpos
    by_cases hf : f < nFlows
    · rw [if_pos hf] at hpos
      exact ⟨hf, List.count_pos_iff.mp hpos⟩
    · rw [if_neg hf] at hpos
      omega
  refine ⟨sf, hb, hl, fun s f _ hf => by rw [hc, if_pos hf], fun s _ hno => ?_,
    fun s f h => (hmem s f h).1⟩
  apply List.eq_nil_iff_forall_not_mem.mpr
  intro f h
  exact hno f (hmem s f h).1 (hmem s f h).2

theorem switchFlows_count_eq_path_count_witness :
    ([[3, 3, 5]] : List (List Int)).length = 1 ∧ InRange 6 [[3, 3, 5]] ∧
    ∃ sf, buildSwitchFlows 1 6 [[3, 3, 5]] = some sf ∧ sf.length = 6 ∧
      (∀ s f : Nat, s < 6 → f < 1 →
        (sf.getD s []).count f = (([[3, 3, 5]] : List (List Int)).getD f []).count (s : Int)) ∧
      (∀ s : Nat, s < 6 →
        (∀ f : Nat, f < 1 → (s : Int) ∉ ([[3, 3, 5]] : List (List Int)).getD f []) →
        sf.getD s [] = []) ∧
      (∀ s f : Nat, f ∈ sf.getD s [] → f < 1) :=
  ⟨by decide, by decide, switchFlows_count_eq_path_count 1 6 [[3, 3, 5]] (by decide) (by decide)⟩

/-! ## Monotonicity -/

theorem markLoop_mono (flows : List Nat) (cov : List Bool) (cnt : Nat) :
    cnt ≤ (markLoop flows (cov, cnt)).2 ∧
    ∀ g : Nat, cov.getD g false = true → (markLoop flows (cov, cnt)).1.getD g false = true := by
  induction flows generalizing cov cnt with
  | nil => exact ⟨le_refl _, fun g h => h⟩
  | cons f rest ih =>
    unfold markLoop
    cases h : cov.getD f false with
    | false =>
      rw [if_pos rfl]
      obtain ⟨i1, i2⟩ := ih (cov.set f true) (cnt + 1)
      refine ⟨by omega, fun g hg => i2 g ?_⟩
      rw [getD_set_eq]
      split
      · rfl
      · exact hg
    | true =>
      rw [if_neg (by simp)]
      exact ih cov cnt

theorem step_mono (sf : List (List Nat)) (st : State) (b : Nat) :
    st.coveredCount ≤ (applyStep sf st b).coveredCount ∧
    (∀ f : Nat, st.covered.getD f false = true →
      (applyStep sf st b).covered.getD f false = true) ∧
    (∀ s : Nat, st.chosen.getD s false = true →
      (applyStep sf st b).chosen.getD s false = true) := by
  obtain ⟨h1, h2⟩ := markLoop_mono (sf.getD b []) st.covered st.coveredCount
  refine ⟨h1, h2, fun s hs => ?_⟩
  show (st.chosen.set b true).getD s false = true
  rw [getD_set_eq]
  split
  · rfl
  · exact hs

theorem stateAfter_succ_inv {nFlows nSwitches : Nat} {sf : List (List Nat)}
    {st0 st1 : State} {k : Nat}
    (hk1 : stateAfter nFlows nSwitches sf st0 (k + 1) = some st1) :
    ∃ st, stateAfter nFlows nSwitches sf st0 k = some st ∧
      iterate nFlows nSwitches sf st = .next st1 := by
  cases hk : stateAfter nFlows nSwitches sf st0 k with
  | none =>
    simp only [stateAfter, hk] at hk1
    cases hk1
  | some st => exact ⟨st, rfl, stateAfter_succ_next hk hk1⟩

/-- C8 (monotonicity): between the state after `j` iterations and the state after
`j + d` iterations `coveredCount` does not decrease and no entry of `covered` or `chosen`
goes from true back to false; no switch index occurs twice in the step log. -/
theorem selection_steps_monotone (nFlows nSwitches : Nat) (paths : List (List Int)) (sf : List (List Nat))
    (j d : Nat) (st st1 : State)
    (hlen : paths.length = nFlows) (hr : InRange nSwitches paths)
    (hb : buildSwitchFlows nFlows nSwitches paths = some sf)
    (hj : stateAfter nFlows nSwitches sf (initState nFlows nSwitches) j = some st)
    (hjd : stateAfter nFlows nSwitches sf (initState nFlows nSwitches) (j + d) = some st1) :
    st.coveredCount ≤ st1.coveredCount ∧
    (∀ f : Nat, st.covered.getD f false = true → st1.covered.getD f false = true) ∧
    (∀ s : Nat, st.chosen.getD s false = true → st1.chosen.getD s false = true) ∧
    (st1.trace.map (fun r => r.switch)).Nodup := by
  have hm := mirror_of_build hlen hr hb
  have hinv := inv_stateAfter hm _ (inv_init nFlows nSwitches paths) (j + d) st1 hjd
  refine ⟨?_, ?_, ?_, hinv.trace_nodup⟩
  all_goals
    clear hinv
    induction d generalizing st1 with
    | zero =>
      rw [Nat.add_zero, hj] at hjd
      cases hjd
      first
        | exact le_refl _
        | exact fun _ h => h
    | succ d ih =>
      obtain ⟨st2, h2, hit⟩ := stateAfter_succ_inv hjd
      obtain ⟨_, b, _, e⟩ := iterate_next hit
      have hstep := step_mono sf st2 b
      rw [← e] at hstep
      have := ih st2 h2
      first
        | exact le_trans this hstep.1
        | exact fun f hf => hstep.2.1 f (this f hf)
        | exact fun s hs => hstep.2.2 s (this s hs)

theorem selection_steps_monotone_witness :
    ([[0], [0, 1], [1]] : List (List Int)).length = 3 ∧ InRange 2 [[0], [0, 1], [1]] ∧
    buildSwitchFlows 3 2 [[0], [0, 1], [1]] = some [[0, 1], [1, 2]] ∧
    stateAfter 3 2 [[0, 1], [1, 2]] (initState 3 2) 1 =
      some ⟨[true, true, false], [true, false], 2, 1, [⟨0, 2, 2⟩]⟩ ∧
    stateAfter 3 2 [[0, 1], [1, 2]] (initState 3 2) (1 + 1) =
      some ⟨[true, true, true], [true, true], 3, 2, [⟨0, 2, 2⟩, ⟨1, 1, 3⟩]⟩ ∧
    (2 ≤ 3 ∧
    (∀ f : Nat, ([true, true, false] : List Bool).getD f false = true →
      ([true, true, true] : List Bool).getD f false = true) ∧
    (∀ s : Nat, ([true, false] : List Bool).getD s false = true →
      ([true, true] : List Bool).getD s false = true) ∧
    (([⟨0, 2, 2⟩, ⟨1, 1, 3⟩] : List StepRecord).map (fun r => r.switch)).Nodup) :=
  ⟨by decide, by decide, by decide, by decide, by decide,
    selection_steps_monotone 3 2 [[0], [0, 1], [1]] [[0, 1], [1, 2]] 1 1
      ⟨[true, true, false], [true, false], 2, 1, [⟨0, 2, 2⟩]⟩
      ⟨[true, true, true], [true, true], 3, 2, [⟨0, 2, 2⟩, ⟨1, 1, 3⟩]⟩
      (by decide) (by decide) (by decide) (by decide) (by decide)⟩

/-! ## Agreement with `count_covered_flows` -/

theorem coverPath_spec (chosen : List Bool) (f : Nat) (path : List Int) (cov : List Bool) :
    coverPath chosen f path cov =
      if ∃ sw ∈ path, 0 ≤ sw ∧ sw < (chosen.length : Int) ∧
          chosen.getD sw.toNat false = true then cov.set f true
      else cov := by
  induction path with
  | nil => simp [coverPath]
  | cons sw rest ih =>
    unfold coverPath
    by_cases h : 0 ≤ sw ∧ sw < (chosen.length : Int) ∧ chosen.getD sw.toNat false = true
    · rw [if_pos h, if_pos ⟨sw, by simp, h⟩]
    · rw [if_neg h, ih]
      by_cases h2 : ∃ sw ∈ rest, 0 ≤ sw ∧ sw < (chosen.length : Int) ∧
          chosen.getD sw.toNat false = true
      · obtain ⟨x, hx, hx2⟩ := h2
        rw [if_pos ⟨x, hx, hx2⟩, if_pos ⟨x, by simp [hx], hx2⟩]
      · rw [if_neg h2, if_neg]
        rintro ⟨x, hx, hx2⟩
        rcases List.mem_cons.mp hx with e | hx3
        · rw [e] at hx2
          exact h hx2
        · exact h2 ⟨x, hx3, hx2⟩

theorem ext_getD (l1 l2 : List Bool) (hlen : l1.length = l2.length)
    (h : ∀ i : Nat, i < l1.length → l1.getD i false = l2.getD i false) : l1 = l2 := by
  apply List.ext_getElem hlen
  intro n h1 h2
  have := h n h1
  rw [List.getD_eq_getElem _ _ h1, List.getD_eq_getElem _ _ h2] at this
  exact this

theorem coverFrom_eq (paths : List (List Int)) (chosen target : List Bool) (n : Nat)
    (hn : n ≤ paths.length) (htl : target.length = n)
    (ht : ∀ g : Nat, g < n → (target.getD g false = true ↔
      ∃ sw ∈ paths.getD g [], 0 ≤ sw ∧ sw < (chosen.length : Int) ∧
        chosen.getD sw.toNat false = true))
    (todo f : Nat) (cov : List Bool) (hcl : cov.length = n) (hf : f + todo = n)
    (hlow : ∀ g : Nat, g < f → cov.getD g false = target.getD g false)
    (hhigh : ∀ g : Nat, f ≤ g → g < n → cov.getD g false = false) :
    coverFrom paths chosen todo f cov = some target := by
  induction todo generalizing f cov with
  | zero =>
    simp only [coverFrom, Option.some.injEq]
    exact ext_getD cov target (by omega) (fun i hi => hlow i (by omega))
  | succ todo ih =>
    have hfl : f < paths.length := by omega
    have hget : paths[f]? = some paths[f] := List.getElem?_eq_getElem hfl
    have hgd : paths.getD f [] = paths[f] := by
      rw [List.getD_eq_getElem?_getD, hget]
      rfl
    simp only [coverFrom, hget]
    apply ih
    · rw [coverPath_spec]
      split
      · rw [List.length_set, hcl]
      · exact hcl
    · omega
    · intro g hg
      rw [coverPath_spec]
      by_cases hgf : g = f
      · subst hgf
        have htg := ht g (by omega)
        rw [hgd] at htg
        split
        · rename_i hhit
          rw [getD_set_eq, if_pos ⟨rfl, by omega⟩]
          exact (htg.mpr hhit).symm
        · rename_i hhit
          rw [hhigh g (le_refl _) (by omega)]
          cases htv : target.getD g false with
          | false => rfl
          | true => exact absurd (htg.mp htv) hhit
      · have : cov.getD g false = target.getD g false := hlow g (by omega)
        split
        · rw [getD_set_eq, if_neg (fun h => hgf h.1.symm)]
          exact this
        · exact this
    · intro g hg1 hg2
      rw [coverPath_spec]
      split
      · rw [getD_set_eq, if_neg (fun h => by omega)]
        exact hhigh g (by omega) hg2
      · exact hhigh g (by omega) hg2

theorem count_true_eq_countP (l : List Bool) (p : Nat → Bool)
    (h : ∀ i : Nat, i < l.length → l.getD i false = p i) :
    l.count true = (List.range l.length).countP p := by
  induction l generalizing p with
  | nil => rfl
  | cons a t ih =>
    have h0 := h 0 (by simp)
    simp only [List.getD_cons_zero] at h0
    have ht := ih (fun i => p (i + 1)) (fun i hi => by
      have := h (i + 1) (by simpa using hi)
      simpa using this)
    rw [List.length_cons, List.range_succ_eq_map, List.countP_cons, List.countP_map,
      List.count_cons, ht, ← h0]
    cases a <;> rfl

/-- C10 (covered-count agreement): on every in-range input the solver returns with a
`coveredCount` equal to `count_covered_flows(nFlows, paths, chosen)` on the returned
vector, which is the number of flows with a chosen switch on their path; in every
reached state `coveredCount` is the number of true entries of `covered`; and the
cumulative count a step writes to the log is that number in the state after the step. -/
theorem coveredCount_eq_count_covered_flows (fuel nFlows nSwitches : Nat)
    (paths : List (List Int))
    (hlen : paths.length = nFlows) (hr : InRange nSwitches paths)
    (hfuel : nSwitches < fuel) :
    (∃ r, greedy_set_cover fuel nFlows nSwitches paths = .returned r ∧
      count_covered_flows nFlows paths r.final.chosen = some r.final.coveredCount ∧
      r.final.coveredCount = flowsWithChosenSwitch nFlows paths r.final.chosen ∧
      r.final.coveredCount = r.final.covered.count true ∧
      ∀ record ∈ r.final.trace, record.covered ≤ r.final.coveredCount) ∧
    (∃ sf, buildSwitchFlows nFlows nSwitches paths = some sf ∧
      (∀ (k : Nat) (st : State),
        stateAfter nFlows nSwitches sf (initState nFlows nSwitches) k = some st →
        st.coveredCount = st.covered.count true) ∧
      (∀ (k : Nat) (st st1 : State),
        stateAfter nFlows nSwitches sf (initState nFlows nSwitches) k = some st →
        stateAfter nFlows nSwitches sf (initState nFlows nSwitches) (k + 1) = some st1 →
        ∃ record : StepRecord, st1.trace = st.trace ++ [record] ∧
          record.covered = st1.coveredCount ∧ record.covered = st1.covered.count true)) := by
  obtain ⟨sf, r, hb, hm, hg, hinv, ⟨kf, hkf⟩, _⟩ := greedy_returns hlen hr fuel hfuel
  have hstep : ∀ (k : Nat) (st st1 : State),
      stateAfter nFlows nSwitches sf (initState nFlows nSwitches) k = some st →
      stateAfter nFlows nSwitches sf (initState nFlows nSwitches) (k + 1) = some st1 →
      ∃ record : StepRecord, st1.trace = st.trace ++ [record] ∧
        record.covered = st1.coveredCount ∧ record.covered = st1.covered.count true := by
    intro k st st1 hk hk1
    have hinv1 := inv_stateAfter hm _ (inv_init nFlows nSwitches paths) (k + 1) st1 hk1
    obtain ⟨_, b, _, e⟩ := iterate_next (stateAfter_succ_next hk hk1)
    refine ⟨⟨(b : Int), scanGain sf st.covered b, st1.coveredCount⟩, ?_, rfl, hinv1.count_eq⟩
    rw [e]
    rfl
  have hle : ∀ (k : Nat) (st : State),
      stateAfter nFlows nSwitches sf (initState nFlows nSwitches) k = some st →
      ∀ record ∈ st.trace, record.covered ≤ st.coveredCount := by
    intro k
    induction k with
    | zero =>
      intro st hk record hrec
      simp only [stateAfter, Option.some.injEq] at hk
      rw [← hk] at hrec
      simp [initState] at hrec
    | succ k ih =>
      intro st1 hk1 record hrec
      obtain ⟨st, hk, hit⟩ := stateAfter_succ_inv hk1
      obtain ⟨last, e1, e2, _⟩ := hstep k st st1 hk hk1
      obtain ⟨_, b, _, e⟩ := iterate_next hit
      have hmono := (step_mono sf st b).1
      rw [← e] at hmono
      rw [e1] at hrec
      rcases List.mem_append.mp hrec with h | h
      · exact le_trans (ih st hk record h) hmono
      · rw [List.mem_singleton] at h
        rw [h, e2]
  refine ⟨⟨r, hg, ?_, ?_, hinv.count_eq, hle kf r.final hkf⟩, sf, hb, ?_, hstep⟩
  · unfold count_covered_flows
    rw [coverFrom_eq paths r.final.chosen r.final.covered nFlows (by omega) hinv.covered_len
      ?_ nFlows 0 (List.replicate nFlows false) (by simp) (by omega)
      (fun g hg => absurd hg (Nat.not_lt_zero g))
      (fun g _ _ => getD_replicate_eq nFlows g false)]
    · simp [hinv.count_eq]
    · intro g hg
      rw [hinv.covered_iff g hg]
      constructor
      · rintro ⟨s, h1, h2⟩
        obtain ⟨_, h3⟩ := hr _ (getD_mem_of_lt paths g (by omega)) _ h1
        refine ⟨(s : Int), h1, by omega, ?_, ?_⟩
        · rw [hinv.chosen_len]
          exact h3
        · simpa using h2
      · rintro ⟨sw, h1, h2, _, h4⟩
        exact ⟨sw.toNat, by rw [Int.toNat_of_nonneg h2]; exact h1, h4⟩
  · rw [hinv.count_eq, flowsWithChosenSwitch, ← hinv.covered_len]
    apply count_true_eq_countP
    intro i hi
    rw [hinv.covered_len] at hi
    rw [Bool.eq_iff_iff, decide_eq_true_iff, hinv.covered_iff i hi]
    constructor
    · rintro ⟨s, h1, h2⟩
      obtain ⟨_, h3⟩ := hr _ (getD_mem_of_lt paths i (by omega)) _ h1
      exact ⟨s, by rw [hinv.chosen_len]; omega, h1, h2⟩
    · rintro ⟨s, _, h1, h2⟩
      exact ⟨s, h1, h2⟩
  · intro k st hk
    exact (inv_stateAfter hm _ (inv_init nFlows nSwitches paths) k st hk).count_eq

theorem coveredCount_eq_count_covered_flows_witness :
    ([[0], [0, 1], [1]] : List (List Int)).length = 3 ∧ InRange 2 [[0], [0, 1], [1]] ∧
    2 < 3 ∧
    (∃ r, greedy_set_cover 3 3 2 [[0], [0, 1], [1]] = .returned r ∧
      count_covered_flows 3 [[0], [0, 1], [1]] r.final.chosen = some r.final.coveredCount ∧
      r.final.coveredCount = flowsWithChosenSwitch 3 [[0], [0, 1], [1]] r.final.chosen ∧
      r.final.coveredCount = r.final.covered.count true ∧
      ∀ record ∈ r.final.trace, record.covered ≤ r.final.coveredCount) ∧
    (∃ sf, buildSwitchFlows 3 2 [[0], [0, 1], [1]] = some sf ∧
      (∀ (k : Nat) (st : State),
        stateAfter 3 2 sf (initState 3 2) k = some st →
        st.coveredCount = st.covered.count true) ∧
      (∀ (k : Nat) (st st1 : State),
        stateAfter 3 2 sf (initState 3 2) k = some st →
        stateAfter 3 2 sf (initState 3 2) (k + 1) = some st1 →
        ∃ record : StepRecord, st1.trace = st.trace ++ [record] ∧
          record.covered = st1.coveredCount ∧ record.covered = st1.covered.count true)) ∧
    stateAfter 3 2 [[0, 1], [1, 2]] (initState 3 2) 1 =
      some ⟨[true, true, false], [true, false], 2, 1, [⟨0, 2, 2⟩]⟩ ∧
    stateAfter 3 2 [[0, 1], [1, 2]] (initState 3 2) (1 + 1) =
      some ⟨[true, true, true], [true, true], 3, 2, [⟨0, 2, 2⟩, ⟨1, 1, 3⟩]⟩ :=
  ⟨by decide, by decide, by decide,
    (coveredCount_eq_count_covered_flows 3 3 2 [[0], [0, 1], [1]]
      (by decide) (by decide) (by decide)).1,
    (coveredCount_eq_count_covered_flows 3 3 2 [[0], [0, 1], [1]]
      (by decide) (by decide) (by decide)).2,
    by decide, by decide⟩

/-- The covered-count agreement holds on inputs whose run makes no selection step:
with no flows, and with a single flow whose path is empty. -/
theorem coveredCount_agreement_without_steps :
    greedy_set_cover 1 0 0 [] = .returned ⟨⟨[], [], 0, 0, []⟩, false⟩ ∧
    count_covered_flows 0 [] [] = some 0 ∧
    greedy_set_cover 1 1 0 [[]] = .returned ⟨⟨[false], [], 0, 0, []⟩, true⟩ ∧
    count_covered_flows 1 [[]] [] = some 0 := by
  decide

/-! ## Computed gain and marginal gain -/

/-- On input whose paths list no switch twice, the gain computed by the scan pass is the
marginal gain of the specification. -/
theorem scanGain_eq_marginalGain_of_nodup (nFlows nSwitches : Nat) (paths : List (List Int))
    (sf : List (List Nat)) (hlen : paths.length = nFlows) (hr : InRange nSwitches paths)
    (hb : buildSwitchFlows nFlows nSwitches paths = some sf)
    (hnd : ∀ path ∈ paths, path.Nodup) (covered : List Bool) (s : Nat) :
    scanGain sf covered s = (marginalGain nFlows paths covered s : Int) := by
  obtain ⟨sf1, hb1, _, hc⟩ := buildSwitchFlows_spec nFlows nSwitches paths hlen hr
  rw [hb] at hb1
  cases hb1
  have hperm : (sf.getD s []).Perm
      ((List.range nFlows).filter (fun f => decide ((s : Int) ∈ paths.getD f []))) := by
    rw [List.perm_iff_count]
    intro f
    rw [hc]
    by_cases hf : f < nFlows
    · rw [if_pos hf]
      have hndp : (paths.getD f []).Nodup := hnd _ (getD_mem_of_lt paths f (by omega))
      by_cases hm : (s : Int) ∈ paths.getD f []
      · rw [List.count_eq_one_of_mem hndp hm, List.count_filter (by simpa using hm),
          List.count_eq_one_of_mem (List.nodup_range _) (List.mem_range.mpr hf)]
      · rw [List.count_eq_zero_of_not_mem hm]
        symm
        apply List.count_eq_zero_of_not_mem
        intro h
        have := (List.mem_filter.mp h).2
        exact hm (by simpa using this)
    · rw [if_neg hf]
      symm
      apply List.count_eq_zero_of_not_mem
      intro h
      exact hf (List.mem_range.mp (List.mem_filter.mp h).1)
  rw [scanGain_eq, hperm.countP_eq, List.countP_filter]
  rfl

/-! ## Where the code departs from the specification -/

/-- C2 (distinct-flow gain), evaluated on the code: with `paths[0] = [3, 3, 5]` and
nothing covered, the reverse list of switch 3 is `[0, 0]` and the scan pass computes
gain 2 for it, while exactly one uncovered flow has switch 3 on its path; the step log
records gain 2 next to a covered count of 1. -/
theorem scan_gain_counts_duplicates :
    buildSwitchFlows 1 6 [[3, 3, 5]] = some [[], [], [], [0, 0], [], [0]] ∧
    scanGain [[], [], [], [0, 0], [], [0]] (initState 1 6).covered 3 = 2 ∧
    marginalGain 1 [[3, 3, 5]] (initState 1 6).covered 3 = 1 ∧
    greedy_set_cover 7 1 6 [[3, 3, 5]] =
      .returned ⟨⟨[true], [false, false, false, true, false, false], 1, 1, [⟨3, 2, 1⟩]⟩,
        false⟩ := by
  decide

/-- C3 (greedy optimality per step), evaluated on the code: on
`paths = [[0, 0, 0], [1], [1]]` with two switches the first step selects switch 0 with a
computed gain of 3; selecting it newly covers one flow, while the unchosen switch 1 would
newly cover two. -/
theorem first_step_not_greedy :
    buildSwitchFlows 3 2 [[0, 0, 0], [1], [1]] = some [[0, 0, 0], [1, 2]] ∧
    stateAfter 3 2 [[0, 0, 0], [1, 2]] (initState 3 2) 1 =
      some ⟨[true, false, false], [true, false], 1, 1, [⟨0, 3, 1⟩]⟩ ∧
    (initState 3 2).chosen.getD 1 false = false ∧
    marginalGain 3 [[0, 0, 0], [1], [1]] (initState 3 2).covered 0 = 1 ∧
    marginalGain 3 [[0, 0, 0], [1], [1]] (initState 3 2).covered 1 = 2 ∧
    greedy_set_cover 3 3 2 [[0, 0, 0], [1], [1]] =
      .returned ⟨⟨[true, true, true], [true, true], 3, 2, [⟨0, 3, 1⟩, ⟨1, 2, 3⟩]⟩, false⟩ := by
  decide

/-- C9 (out-of-range rejection), evaluated on the code: with one switch and
`paths = [[1]]` (or `[[-1]]`) `greedy_set_cover` reaches the unchecked access
`switchFlows[sw]` outside the vector, where the matrix fill of
`solve_min_switch_set_cover_ILP` stops with its range error; no input makes
`greedy_set_cover` stop with an error. -/
theorem out_of_range_unchecked :
    greedy_set_cover 2 1 1 [[1]] = .outOfBounds ∧
    greedy_set_cover 2 1 1 [[-1]] = .outOfBounds ∧
    ilpFillMatrix 1 1 [[1]] = .rejected ∧
    ilpFillMatrix 1 1 [[-1]] = .rejected ∧
    ∀ (fuel nFlows nSwitches : Nat) (paths : List (List Int)),
      greedy_set_cover fuel nFlows nSwitches paths ≠ .rejected := by
  refine ⟨by decide, by decide, by decide, by decide, ?_⟩
  intro fuel nFlows nSwitches paths
  unfold greedy_set_cover
  cases buildSwitchFlows nFlows nSwitches paths with
  | none => simp
  | some sf =>
    simp only
    generalize initState nFlows nSwitches = st
    induction fuel generalizing st with
    | zero => simp [whileLoop]
    | succ fuel ih =>
      unfold whileLoop
      cases iterate nFlows nSwitches sf st with
      | next st1 => exact ih st1
      | infeasible => simp
      | done => simp

end GreedySetCover
